import Mathlib

/-!
# simple-blockchain: the vote chain of `main.go`

A shallow embedding of the hash-linked vote ledger: the `Vote` record, the pure
functions `generateHash`, `createVote` and `validateVote`, the genesis block built in
`main`, and the `postVote` handler acting on the global chain `Votes` under `mutex`.

Conventions of the embedding

* Go's `int` is taken as 64 bits wide; `addInt` is Go's `+` on it (two's complement).
* `time.Now()` is an explicit argument of every function that reads the clock.
* The standard-library routines the program calls (`fmt`'s rendering of a `time.Time`,
  SHA-256 followed by hex encoding, `json.Marshal`) are the fields of `Lib`; the general
  theorems hold for all of them, and `stdLib` instantiates them with an executable
  SHA-256 for the concrete runs. `fmt`'s `%v` of an `int` is the decimal numeral.
* The process state is the pair (chain, is the mutex held); a step that would wait for
  a held mutex is reported as `Result.blocked`.
* Concurrent calls of `postVote` are goroutines advancing by the atomic steps of lines
  96-110 under an arbitrary scheduler (`Phase`, `step`, `run`); `mutex.Lock()` can be
  taken only while the mutex is free.
-/

set_option maxRecDepth 100000

namespace SimpleBlockchain

/-! ## Data model -/

/-- Vote represents a vote in the blockchain (`type Vote struct`). -/
structure Vote (Time : Type) where
  Index : Int
  Timestamp : Time
  Value : String
  Hash : String
  PrevHash : String
  deriving DecidableEq

/-- Request represents an input vote (`type Request struct`). -/
structure Request where
  Value : String

/-- The three payloads handed to `respondWithJSON` by `postVote`: the request body
(line 91), the message map (line 102) and the chain (line 110). -/
inductive Payload (Time : Type) where
  | body : Payload Time
  | message (text : String) : Payload Time
  | votes (vs : List (Vote Time)) : Payload Time

/-- Standard-library routines used by `main.go`. -/
structure Lib (Time : Type) where
  /-- The text `fmt` prints for a `time.Time` under `%v`. -/
  timeString : Time → String
  /-- The text `hex.EncodeToString(h.Sum(nil))` after `h.Write([]byte(s))` on a fresh SHA-256. -/
  sha256Hex : String → String
  /-- Whether `json.Marshal` succeeds on the payload. -/
  marshalOk : Payload Time → Bool

/-- Two's-complement wrap of an integer into the range of a 64-bit Go `int`. -/
def wrapInt (x : Int) : Int :=
  (x + 9223372036854775808) % 18446744073709551616 - 9223372036854775808

/-- Go's `a + b` on `int`. -/
def addInt (a b : Int) : Int := wrapInt (a + b)

/-- The text `fmt` prints for an `int` under `%v`: its decimal numeral. -/
def intString (i : Int) : String := toString i

/-! ## Entry factory and validator -/

/-- The string `v` of `generateHash` (line 129):
`fmt.Sprintf("%v%v%v%v", vote.Index, vote.Timestamp, vote.Value, vote.PrevHash)`. -/
def hashInput {Time : Type} (L : Lib Time) (vote : Vote Time) : String :=
  intString vote.Index ++ L.timeString vote.Timestamp ++ vote.Value ++ vote.PrevHash

/-- `func generateHash(vote Vote) string` (lines 128-135). -/
def generateHash {Time : Type} (L : Lib Time) (vote : Vote Time) : String :=
  L.sha256Hex (hashInput L vote)

/-- `func createVote(oldVote Vote, s string) Vote` (lines 137-148); `now` is the value of
`time.Now()`. -/
def createVote {Time : Type} (L : Lib Time) (oldVote : Vote Time) (s : String) (now : Time) :
    Vote Time :=
  let vote : Vote Time :=
    { Index := addInt oldVote.Index 1
      Timestamp := now
      Value := s
      Hash := ""
      PrevHash := oldVote.Hash }
  { vote with Hash := generateHash L vote }

/-- `func validateVote(newVote, oldVote Vote) bool` (lines 150-164). -/
def validateVote {Time : Type} (L : Lib Time) (newVote oldVote : Vote Time) : Bool :=
  if addInt oldVote.Index 1 ≠ newVote.Index then false
  else if oldVote.Hash ≠ newVote.PrevHash then false
  else if generateHash L newVote ≠ newVote.Hash then false
  else true

/-! ## Chain store -/

/-- The two globals of `main.go`: the chain `Votes` and whether `mutex` is held. -/
structure Store (Time : Type) where
  Votes : List (Vote Time)
  locked : Bool
  deriving DecidableEq

/-- The state at process start: `Votes` is nil and `mutex` is free. -/
def Store.initial (Time : Type) : Store Time := { Votes := [], locked := false }

/-- How a run of a handler or goroutine ends: it wrote a response with the given status
code, it returned without writing one, it is waiting for the mutex, or it panicked. -/
inductive Result where
  | responded (code : Nat) : Result
  | returned : Result
  | blocked : Result
  | panicked : Result
  deriving DecidableEq

/-- The status code `respondWithJSON` writes (lines 113-126): the given code, or 500 when
`json.Marshal` fails. -/
def respondWithJSON {Time : Type} (L : Lib Time) (code : Nat) (payload : Payload Time) : Nat :=
  if L.marshalOk payload then code else 500

/-- The goroutine started by `main` (lines 41-54): build the genesis vote, hash it, and
append it to `Votes` under the mutex. -/
def genesis {Time : Type} (L : Lib Time) (st : Store Time) (now : Time) :
    Result × Store Time :=
  let genesisVote : Vote Time :=
    { Index := 0
      Timestamp := now
      Value := ""
      Hash := ""
      PrevHash := "" }
  let genesisVote : Vote Time := { genesisVote with Hash := generateHash L genesisVote }
  if st.locked then (Result.blocked, st)
  else
    let st1 : Store Time := { st with locked := true }
    let st2 : Store Time := { st1 with Votes := st1.Votes ++ [genesisVote] }
    (Result.returned, { st2 with locked := false })

/-- `func postVote(w, r)` (lines 85-111). `body` is the outcome of decoding the request
body into a `Request` (`none` when `decoder.Decode` returns an error) and `now` the value
`time.Now()` has inside `createVote`. -/
def postVote {Time : Type} (L : Lib Time) (st : Store Time) (body : Option Request)
    (now : Time) : Result × Store Time :=
  match body with
  | none => (Result.responded (respondWithJSON L 400 Payload.body), st)
  | some req =>
    if st.locked then (Result.blocked, st)
    else
      let st1 : Store Time := { st with locked := true }
      match st1.Votes.getLast? with
      | none => (Result.panicked, st1)
      | some prevVote =>
        let newVote := createVote L prevVote req.Value now
        let valid := validateVote L newVote prevVote
        if !valid then
          (Result.responded (respondWithJSON L 422 (Payload.message "invalid vote")), st1)
        else
          let st2 : Store Time := { st1 with Votes := st1.Votes ++ [newVote] }
          let st3 : Store Time := { st2 with locked := false }
          (Result.responded (respondWithJSON L 200 (Payload.votes st3.Votes)), st3)

/-- The body of `postVote` with the call `validateVote(newVote, prevVote)` of line 100
replaced by an arbitrary verdict function `V`; `postVote` is the instance
`V = validateVote`. It serves to state what each branch does whatever the verdict is. -/
def postVoteWith {Time : Type} (L : Lib Time) (V : Vote Time → Vote Time → Bool)
    (st : Store Time) (body : Option Request) (now : Time) : Result × Store Time :=
  match body with
  | none => (Result.responded (respondWithJSON L 400 Payload.body), st)
  | some req =>
    if st.locked then (Result.blocked, st)
    else
      let st1 : Store Time := { st with locked := true }
      match st1.Votes.getLast? with
      | none => (Result.panicked, st1)
      | some prevVote =>
        let newVote := createVote L prevVote req.Value now
        let valid := V newVote prevVote
        if !valid then
          (Result.responded (respondWithJSON L 422 (Payload.message "invalid vote")), st1)
        else
          let st2 : Store Time := { st1 with Votes := st1.Votes ++ [newVote] }
          let st3 : Store Time := { st2 with locked := false }
          (Result.responded (respondWithJSON L 200 (Payload.votes st3.Votes)), st3)

/-- The append-only contract of one handler run from state `st` with outcome `out`: the
old chain is a prefix of the new one, an answer 200 comes with exactly one more entry,
and an answer 422 or 400 comes with the chain unchanged. -/
def AppendOnly {Time : Type} (st : Store Time) (out : Result × Store Time) : Prop :=
  st.Votes <+: out.2.Votes ∧
  (out.1 = Result.responded 200 → out.2.Votes.length = st.Votes.length + 1) ∧
  (out.1 = Result.responded 422 → out.2.Votes = st.Votes) ∧
  (out.1 = Result.responded 400 → out.2.Votes = st.Votes)

/-! ## Runs, reachable states and the chain invariant -/

/-- A sequence of `postVote` calls, one after the other; each item is a decoded body and
the clock value of that call. -/
def postVotes {Time : Type} (L : Lib Time) (st : Store Time)
    (calls : List (Option Request × Time)) : Store Time :=
  calls.foldl (fun s call => (postVote L s call.1 call.2).2) st

/-- The states reachable from process start: the genesis goroutine runs on the initial
state, then any number of `postVote` calls follow. -/
inductive Reachable {Time : Type} (L : Lib Time) : Store Time → Prop where
  | init (t : Time) : Reachable L (genesis L (Store.initial Time) t).2
  | post (st : Store Time) (body : Option Request) (t : Time) :
      Reachable L st → Reachable L (postVote L st body t).2

/-- The invariants of the data model, for a chain `c`: it is non-empty, the entry at
position `i` carries the index `i` (as a Go `int`), each entry after the first carries its
predecessor's hash as `PrevHash`, and each entry's `Hash` is `generateHash` of the entry. -/
def ChainInvariant {Time : Type} (L : Lib Time) (c : List (Vote Time)) : Prop :=
  c ≠ [] ∧
  (∀ (i : Nat) (h : i < c.length), (c.get ⟨i, h⟩).Index = wrapInt (i : Int)) ∧
  (∀ (i : Nat) (h : i + 1 < c.length),
    (c.get ⟨i + 1, h⟩).PrevHash = (c.get ⟨i, Nat.lt_of_succ_lt h⟩).Hash) ∧
  (∀ (i : Nat) (h : i < c.length), (c.get ⟨i, h⟩).Hash = generateHash L (c.get ⟨i, h⟩))

/-- Two votes differ in exactly one of the four fields that `generateHash` reads. -/
def DifferInOneField {Time : Type} (v w : Vote Time) : Prop :=
  (v.Index ≠ w.Index ∧ v.Timestamp = w.Timestamp ∧ v.Value = w.Value ∧
    v.PrevHash = w.PrevHash) ∨
  (v.Index = w.Index ∧ v.Timestamp ≠ w.Timestamp ∧ v.Value = w.Value ∧
    v.PrevHash = w.PrevHash) ∨
  (v.Index = w.Index ∧ v.Timestamp = w.Timestamp ∧ v.Value ≠ w.Value ∧
    v.PrevHash = w.PrevHash) ∨
  (v.Index = w.Index ∧ v.Timestamp = w.Timestamp ∧ v.Value = w.Value ∧
    v.PrevHash ≠ w.PrevHash)

/-- The number a list of decimal digit characters denotes (most significant first). -/
def digitsValue (cs : List Char) : Nat :=
  cs.foldl (fun acc c => 10 * acc + (c.toNat - 48)) 0

/-- The integer a decimal numeral with an optional leading minus sign denotes. -/
def numeralValue (s : String) : Int :=
  match s.data with
  | '-' :: cs => -(digitsValue cs : Int)
  | cs => (digitsValue cs : Int)

/-! ## A concrete library: SHA-256 (FIPS 180-4) with lower-case hex output

Used to run the definitions on concrete chains. A timestamp is represented by the text
`fmt` prints for it. -/

namespace Sha256

/-- The round constants. -/
def K : List Nat := [
  1116352408, 1899447441, 3049323471, 3921009573, 961987163, 1508970993, 2453635748,
  2870763221, 3624381080, 310598401, 607225278, 1426881987, 1925078388, 2162078206,
  2614888103, 3248222580, 3835390401, 4022224774, 264347078, 604807628, 770255983,
  1249150122, 1555081692, 1996064986, 2554220882, 2821834349, 2952996808, 3210313671,
  3336571891, 3584528711, 113926993, 338241895, 666307205, 773529912, 1294757372,
  1396182291, 1695183700, 1986661051, 2177026350, 2456956037, 2730485921, 2820302411,
  3259730800, 3345764771, 3516065817, 3600352804, 4094571909, 275423344, 430227734,
  506948616, 659060556, 883997877, 958139571, 1322822218, 1537002063, 1747873779,
  1955562222, 2024104815, 2227730452, 2361852424, 2428436474, 2756734187, 3204031479,
  3329325298]

/-- The initial hash value. -/
def H0 : List Nat :=
  [1779033703, 3144134277, 1013904242, 2773480762, 1359893119, 2600822924, 528734635,
   1541459225]

/-- Reduction to a 32-bit word. -/
def w32 (x : Nat) : Nat := x % 4294967296

/-- Rotate a 32-bit word right by `n` bits. -/
def rotr (n x : Nat) : Nat := w32 ((x >>> n) ||| (x <<< (32 - n)))

/-- UTF-8 bytes of a character (the bytes of `[]byte(v)` for a Go string). -/
def utf8 (c : Char) : List Nat :=
  let n := c.toNat
  if n < 0x80 then [n]
  else if n < 0x800 then [0xC0 + n / 64, 0x80 + n % 64]
  else if n < 0x10000 then [0xE0 + n / 4096, 0x80 + (n / 64) % 64, 0x80 + n % 64]
  else [0xF0 + n / 262144, 0x80 + (n / 4096) % 64, 0x80 + (n / 64) % 64, 0x80 + n % 64]

/-- The bytes of a string. -/
def bytesOf (s : String) : List Nat := s.data.flatMap utf8

/-- Big-endian bytes of `x`, `k` of them. -/
def bigEndian (k : Nat) (x : Nat) : List Nat :=
  (List.range k).reverse.map (fun i => (x >>> (8 * i)) % 256)

/-- Message padding: a one bit, zeros, and the bit length as a 64-bit number. -/
def pad (m : List Nat) : List Nat :=
  let l := m.length
  let z := (55 + 64 - l % 64) % 64
  m ++ [0x80] ++ List.replicate z 0 ++ bigEndian 8 (8 * l)

/-- Group bytes into big-endian 32-bit words. -/
def words : List Nat → List Nat
  | a :: b :: c :: d :: rest => (((a * 256 + b) * 256 + c) * 256 + d) :: words rest
  | _ => []

/-- One step of the message schedule; the schedule is kept newest word first. -/
def extend (rev : List Nat) : List Nat :=
  let w2 := rev.getD 1 0
  let w7 := rev.getD 6 0
  let w15 := rev.getD 14 0
  let w16 := rev.getD 15 0
  let s0 := rotr 7 w15 ^^^ rotr 18 w15 ^^^ (w15 >>> 3)
  let s1 := rotr 17 w2 ^^^ rotr 19 w2 ^^^ (w2 >>> 10)
  w32 (w16 + s0 + w7 + s1) :: rev

/-- The 64-word message schedule of a 16-word block. -/
def schedule (block : List Nat) : List Nat :=
  ((List.range 48).foldl (fun rev _ => extend rev) block.reverse).reverse

/-- One compression round on the working variables `a..h`. -/
def round (s : List Nat) (kw : Nat × Nat) : List Nat :=
  match s with
  | [a, b, c, d, e, f, g, h] =>
    let S1 := rotr 6 e ^^^ rotr 11 e ^^^ rotr 25 e
    let ch := g ^^^ (e &&& (f ^^^ g))
    let t1 := w32 (h + S1 + ch + kw.1 + kw.2)
    let S0 := rotr 2 a ^^^ rotr 13 a ^^^ rotr 22 a
    let maj := (a &&& (b ||| c)) ||| (b &&& c)
    let t2 := w32 (S0 + maj)
    [w32 (t1 + t2), a, b, c, w32 (d + t1), e, f, g]
  | _ => s

/-- Compression of one block into the running hash value. -/
def compress (h : List Nat) (block : List Nat) : List Nat :=
  List.zipWith (fun x y => w32 (x + y)) h ((K.zip (schedule block)).foldl round h)

/-- Split the word list into 16-word blocks. -/
def blocks : Nat → List Nat → List (List Nat)
  | 0, _ => []
  | n + 1, ws => if ws = [] then [] else ws.take 16 :: blocks n (ws.drop 16)

/-- The 32-byte digest of a byte list. -/
def sum256 (m : List Nat) : List Nat :=
  let ws := words (pad m)
  ((blocks ws.length ws).foldl compress H0).flatMap (bigEndian 4)

/-- One lower-case hex digit. -/
def hexDigit (n : Nat) : Char := "0123456789abcdef".data.getD n '0'

/-- Lower-case hex text of a byte list (`hex.EncodeToString`). -/
def hexEncode (bs : List Nat) : String :=
  String.mk (bs.flatMap fun b => [hexDigit (b / 16), hexDigit (b % 16)])

/-- SHA-256 of the bytes of a string, as hex text. -/
def hexOfString (s : String) : String := hexEncode (sum256 (bytesOf s))

end Sha256

/-- The concrete library: timestamps are their printed text, hashing is SHA-256, and
`json.Marshal` succeeds. -/
def stdLib : Lib String :=
  { timeString := fun t => t
    sha256Hex := Sha256.hexOfString
    marshalOk := fun _ => true }

/-- A sample genesis chain under `stdLib`. -/
def sampleChain : List (Vote String) :=
  (genesis stdLib (Store.initial String) "2024-05-01 10:00:00 +0000 UTC").2.Votes

/-- A sample store: the sample genesis chain with the mutex free. -/
def sampleStore : Store String := { Votes := sampleChain, locked := false }

/-- The clock value of the sample calls. -/
def sampleTime : String := "2024-05-01 10:00:01 +0000 UTC"

/-- The genesis vote of the sample chain. -/
def sampleGenesis : Vote String :=
  { Index := 0
    Timestamp := "2024-05-01 10:00:00 +0000 UTC"
    Value := ""
    Hash := "1bf2a219c06bbde9fcc957f0b394926b207072066e0d8ad9df2d361092e86bac"
    PrevHash := "" }

/-- The sample store after one accepted vote: genesis, then `postVote` of "yes". -/
def sampleReached : Store String :=
  (postVote stdLib (genesis stdLib (Store.initial String) "2024-05-01 10:00:00 +0000 UTC").2
    (some { Value := "yes" }) sampleTime).2

/-- A sample vote. -/
def sampleVote : Vote String :=
  { Index := 1
    Timestamp := "2024-05-01 10:00:01 +0000 UTC"
    Value := "yes"
    Hash := ""
    PrevHash := "ab" }

/-- The sample vote with another value. -/
def sampleVoteNo : Vote String := { sampleVote with Value := "no" }

/-- The sample vote one second later. -/
def sampleVoteLater : Vote String :=
  { sampleVote with Timestamp := "2024-05-01 10:00:02 +0000 UTC" }

/-- The sample vote with a stored hash that is not the hash of its fields. -/
def sampleTampered : Vote String :=
  { createVote stdLib sampleGenesis "yes" sampleTime with Value := "no" }

/-! ## Concurrent handlers

Several `postVote` goroutines run against the one store. Each goroutine advances by the
atomic steps of lines 96-110; a scheduler picks, step after step, which goroutine moves.
`mutex.Lock()` is enabled only while the mutex is free. -/

/-- Where a `postVote` goroutine stands, with the locals it has computed so far. -/
inductive Phase (Time : Type) where
  /-- The body is decoded into the value `x`; next is `mutex.Lock()` (line 96). -/
  | start (x : String) : Phase Time
  /-- The mutex is held; next is the read of the tail (line 97). -/
  | locked (x : String) : Phase Time
  /-- `prevVote` is read; next is `createVote` (line 98). -/
  | read (x : String) (prevVote : Vote Time) : Phase Time
  /-- `newVote` is built; next is `validateVote` (line 100). -/
  | created (prevVote newVote : Vote Time) : Phase Time
  /-- `valid` is computed; next is the branch of lines 101-106. -/
  | checked (newVote : Vote Time) (valid : Bool) : Phase Time
  /-- `newVote` is appended (line 106); next is `mutex.Unlock()` (line 108). -/
  | appended : Phase Time
  /-- The mutex is released; next is the answer of line 110. -/
  | unlocked : Phase Time
  /-- The handler answered after the append and returned. -/
  | done (code : Nat) : Phase Time
  /-- The handler answered 422 and returned at line 103, the mutex still held. -/
  | rejected (code : Nat) : Phase Time
  /-- The handler panicked at line 97 on an empty chain, the mutex still held. -/
  | panicked : Phase Time

/-- The goroutine is between `Lock` and `Unlock`. -/
def Phase.isCritical {Time : Type} : Phase Time → Bool
  | Phase.locked _ => true
  | Phase.read _ _ => true
  | Phase.created _ _ => true
  | Phase.checked _ _ => true
  | Phase.appended => true
  | _ => false

/-- The goroutine has executed its append of line 106. -/
def Phase.hasAppended {Time : Type} : Phase Time → Bool
  | Phase.appended => true
  | Phase.unlocked => true
  | Phase.done _ => true
  | _ => false

/-- The goroutine has answered after its append and returned. -/
def Phase.isDone {Time : Type} : Phase Time → Bool
  | Phase.done _ => true
  | _ => false

/-- The number of atomic steps the goroutine still has to take on the accepting path. -/
def Phase.remaining {Time : Type} : Phase Time → Nat
  | Phase.start _ => 7
  | Phase.locked _ => 6
  | Phase.read _ _ => 5
  | Phase.created _ _ => 4
  | Phase.checked _ _ => 3
  | Phase.appended => 2
  | Phase.unlocked => 1
  | _ => 0

/-- A configuration of the running program: the shared store and the goroutines. -/
structure Config (Time : Type) where
  store : Store Time
  procs : List (Phase Time)

/-- The configuration in which one `postVote` call per value of `xs` has been issued
against the store `st` and none has reached `Lock` yet. -/
def Config.init {Time : Type} (st : Store Time) (xs : List String) : Config Time :=
  { store := st, procs := xs.map Phase.start }

/-- One atomic step of goroutine `i`; `t` is the value of `time.Now()` should the step be
the call of `createVote`. The result is `none` when the goroutine cannot move: it waits
for the mutex, it has returned, or there is no goroutine `i`. -/
def step {Time : Type} (L : Lib Time) (cfg : Config Time) (i : Nat) (t : Time) :
    Option (Config Time) :=
  match cfg.procs[i]? with
  | none => none
  | some (Phase.start x) =>
    if cfg.store.locked then none
    else some { store := { cfg.store with locked := true }
                procs := cfg.procs.set i (Phase.locked x) }
  | some (Phase.locked x) =>
    match cfg.store.Votes.getLast? with
    | none => some { cfg with procs := cfg.procs.set i Phase.panicked }
    | some prevVote => some { cfg with procs := cfg.procs.set i (Phase.read x prevVote) }
  | some (Phase.read x prevVote) =>
    some { cfg with
      procs := cfg.procs.set i (Phase.created prevVote (createVote L prevVote x t)) }
  | some (Phase.created prevVote newVote) =>
    some { cfg with
      procs := cfg.procs.set i (Phase.checked newVote (validateVote L newVote prevVote)) }
  | some (Phase.checked newVote valid) =>
    if !valid then
      some { cfg with
        procs := cfg.procs.set i
          (Phase.rejected (respondWithJSON L 422 (Payload.message "invalid vote"))) }
    else
      some { store := { cfg.store with Votes := cfg.store.Votes ++ [newVote] }
             procs := cfg.procs.set i Phase.appended }
  | some Phase.appended =>
    some { store := { cfg.store with locked := false }
           procs := cfg.procs.set i Phase.unlocked }
  | some Phase.unlocked =>
    some { cfg with
      procs := cfg.procs.set i
        (Phase.done (respondWithJSON L 200 (Payload.votes cfg.store.Votes))) }
  | some (Phase.done _) => none
  | some (Phase.rejected _) => none
  | some Phase.panicked => none

/-- The configuration after a schedule: each item names the goroutine to move and the
clock value; an item whose goroutine cannot move leaves the configuration as it is. -/
def run {Time : Type} (L : Lib Time) (cfg : Config Time) (sched : List (Nat × Time)) :
    Config Time :=
  sched.foldl (fun c item => (step L c item.1 item.2).getD c) cfg

/-- Every goroutine has answered after its append and returned. -/
def Config.allDone {Time : Type} (cfg : Config Time) : Bool :=
  cfg.procs.all Phase.isDone

/-- The number of atomic steps still to be taken by all goroutines together. -/
def Config.remaining {Time : Type} (cfg : Config Time) : Nat :=
  (cfg.procs.map Phase.remaining).sum

/-- What a goroutine's locals must satisfy with respect to the chain `votes`: the tail
it read is still the tail, its candidate was built on that tail, its verdict is true; and
it has neither panicked nor returned with the mutex held. -/
def Phase.Consistent {Time : Type} (L : Lib Time) (votes : List (Vote Time)) :
    Phase Time → Prop
  | Phase.read _ prevVote => votes.getLast? = some prevVote
  | Phase.created prevVote newVote =>
      votes.getLast? = some prevVote ∧ ∃ x t, newVote = createVote L prevVote x t
  | Phase.checked newVote valid =>
      valid = true ∧ ∃ prevVote x t,
        votes.getLast? = some prevVote ∧ newVote = createVote L prevVote x t
  | Phase.rejected _ => False
  | Phase.panicked => False
  | _ => True

/-- The invariant of the concurrent runs started from the chain `votes0` with `n`
goroutines: the chain invariant, the initial chain is a prefix, one entry was added per
goroutine that has appended, the mutex is held exactly when some goroutine is between
`Lock` and `Unlock`, at most one goroutine is, and every goroutine's locals are
consistent with the chain. -/
structure ConcInv {Time : Type} (L : Lib Time) (votes0 : List (Vote Time)) (n : Nat)
    (cfg : Config Time) : Prop where
  chain : ChainInvariant L cfg.store.Votes
  pre : votes0 <+: cfg.store.Votes
  len : cfg.store.Votes.length = votes0.length + cfg.procs.countP Phase.hasAppended
  size : cfg.procs.length = n
  held : cfg.store.locked = true ↔
    ∃ (i : Nat) (p : Phase Time), cfg.procs[i]? = some p ∧ p.isCritical = true
  excl : ∀ (i j : Nat) (p q : Phase Time), cfg.procs[i]? = some p → cfg.procs[j]? = some q →
    p.isCritical = true → q.isCritical = true → i = j
  wf : ∀ (i : Nat) (p : Phase Time), cfg.procs[i]? = some p →
    Phase.Consistent L cfg.store.Votes p

/-- A sample schedule for two goroutines: goroutine 1 asks for the mutex while goroutine
0 holds it, and their steps alternate whenever both can move. -/
def sampleSchedule : List (Nat × String) :=
  [(0, "t0"), (1, "t1"), (0, "t2"), (1, "t3"), (0, "2024-05-01 10:00:01 +0000 UTC"),
   (1, "t5"), (0, "t6"), (0, "t7"), (1, "t8"), (0, "t9"), (1, "t10"), (0, "t11"),
   (1, "t12"), (1, "2024-05-01 10:00:02 +0000 UTC"), (1, "t14"), (1, "t15"), (1, "t16"),
   (1, "t17")]

/-- The configuration two concurrent calls, of values "yes" and "no", reach from the
sample store under the sample schedule. -/
def sampleFinal : Config String :=
  run stdLib (Config.init sampleStore ["yes", "no"]) sampleSchedule

/-! ## Basic facts -/

theorem wrapInt_wrapInt_add (a b : Int) : wrapInt (wrapInt a + b) = wrapInt (a + b) := by
  unfold wrapInt
  omega

theorem wrapInt_of_range (x : Int) (hlo : -9223372036854775808 ≤ x)
    (hhi : x < 9223372036854775808) : wrapInt x = x := by
  unfold wrapInt
  omega

theorem addInt_one_of_lt (a : Int) (hlo : -9223372036854775808 ≤ a)
    (hhi : a < 9223372036854775807) : addInt a 1 = a + 1 := by
  unfold addInt
  exact wrapInt_of_range _ (by omega) (by omega)

theorem addInt_one_max : addInt 9223372036854775807 1 = -9223372036854775808 := by decide

theorem generateHash_createVote {Time : Type} (L : Lib Time) (p : Vote Time) (s : String)
    (t : Time) : generateHash L (createVote L p s t) = (createVote L p s t).Hash := rfl

theorem validateVote_createVote {Time : Type} (L : Lib Time) (p : Vote Time) (s : String)
    (t : Time) : validateVote L (createVote L p s t) p = true := by
  simp [validateVote, generateHash_createVote]
  simp [createVote]

theorem postVote_some {Time : Type} (L : Lib Time) (vs : List (Vote Time)) (E : Vote Time)
    (hE : vs.getLast? = some E) (req : Request) (t : Time) :
    postVote L { Votes := vs, locked := false } (some req) t =
      (Result.responded (respondWithJSON L 200 (Payload.votes (vs ++ [createVote L E req.Value t]))),
        { Votes := vs ++ [createVote L E req.Value t], locked := false }) := by
  simp [postVote, hE, validateVote_createVote]

theorem postVote_none {Time : Type} (L : Lib Time) (st : Store Time) (t : Time) :
    postVote L st none t = (Result.responded (respondWithJSON L 400 Payload.body), st) := rfl

theorem postVote_blocked {Time : Type} (L : Lib Time) (st : Store Time)
    (hheld : st.locked = true) (req : Request) (t : Time) :
    postVote L st (some req) t = (Result.blocked, st) := by
  simp [postVote, hheld]

theorem respondWithJSON_cases {Time : Type} (L : Lib Time) (code : Nat) (p : Payload Time) :
    respondWithJSON L code p = code ∨ respondWithJSON L code p = 500 := by
  unfold respondWithJSON
  split <;> simp

theorem respondWithJSON_ne {Time : Type} (L : Lib Time) (code c : Nat) (p : Payload Time)
    (h1 : code ≠ c) (h2 : c ≠ 500) : respondWithJSON L code p ≠ c := by
  rcases respondWithJSON_cases L code p with h | h <;> rw [h]
  · exact h1
  · exact fun h => h2 h.symm

theorem postVote_eq_postVoteWith {Time : Type} (L : Lib Time) (st : Store Time)
    (body : Option Request) (t : Time) :
    postVote L st body t = postVoteWith L (validateVote L) st body t := rfl

theorem getLast?_of_ne_nil {Time : Type} (vs : List (Vote Time)) (hne : vs ≠ []) :
    ∃ E, vs.getLast? = some E := by
  cases h : vs.getLast? with
  | none => exact absurd (List.getLast?_eq_none_iff.mp h) hne
  | some E => exact ⟨E, rfl⟩

theorem appendOnly_postVoteWith {Time : Type} (L : Lib Time) (V : Vote Time → Vote Time → Bool)
    (st : Store Time) (body : Option Request) (t : Time) (hne : st.Votes ≠ []) :
    AppendOnly st (postVoteWith L V st body t) := by
  obtain ⟨E, hE⟩ := getLast?_of_ne_nil st.Votes hne
  cases body with
  | none =>
    have h := respondWithJSON_ne L 400 200 (Payload.body : Payload Time) (by decide) (by decide)
    exact ⟨⟨[], by simp [postVoteWith]⟩, by simp [postVoteWith, h], by simp [postVoteWith],
      by simp [postVoteWith]⟩
  | some req =>
    by_cases hl : st.locked = true
    · simp [AppendOnly, postVoteWith, hl]
    · by_cases hv : V (createVote L E req.Value t) E = true
      · have h200 := respondWithJSON_cases L 200
          (Payload.votes (st.Votes ++ [createVote L E req.Value t]))
        refine ⟨⟨[createVote L E req.Value t], by simp [postVoteWith, hl, hE, hv]⟩,
          by simp [postVoteWith, hl, hE, hv], ?_, ?_⟩
        · simp only [postVoteWith, hl, hE, hv]
          rcases h200 with h | h <;> simp [h]
        · simp only [postVoteWith, hl, hE, hv]
          rcases h200 with h | h <;> simp [h]
      · have h422 := respondWithJSON_cases L 422 (Payload.message "invalid vote")
        refine ⟨⟨[], by simp [postVoteWith, hl, hE, hv]⟩, ?_, by simp [postVoteWith, hl, hE, hv],
          by simp [postVoteWith, hl, hE, hv]⟩
        simp only [postVoteWith, hl, hE, hv]
        rcases h422 with h | h <;> simp [h]

/-- The rejection branch of the handler (lines 101-104) returns with the mutex still
held: whenever the verdict on the candidate is false, the run answers through
`respondWithJSON` with 422, leaves the chain as it was, and leaves `locked = true`. -/
theorem postVoteWith_rejected {Time : Type} (L : Lib Time) (V : Vote Time → Vote Time → Bool)
    (st : Store Time) (E : Vote Time) (req : Request) (t : Time)
    (hfree : st.locked = false) (hE : st.Votes.getLast? = some E)
    (hrej : V (createVote L E req.Value t) E = false) :
    postVoteWith L V st (some req) t =
      (Result.responded (respondWithJSON L 422 (Payload.message "invalid vote")),
        { Votes := st.Votes, locked := true }) := by
  simp [postVoteWith, hfree, hE, hrej]

/-- The handler never takes its rejection branch: no run of `postVote` answers 422,
because `validateVote` accepts every vote that `createVote` builds on the same
predecessor. -/
theorem postVote_never_422 {Time : Type} (L : Lib Time) (st : Store Time)
    (body : Option Request) (t : Time) :
    (postVote L st body t).1 ≠ Result.responded 422 := by
  cases body with
  | none =>
    rw [postVote_none]
    rcases respondWithJSON_cases L 400 (Payload.body : Payload Time) with h | h <;> simp [h]
  | some req =>
    by_cases hl : st.locked = true
    · rw [postVote_blocked L st hl]; simp
    · cases hE : st.Votes.getLast? with
      | none => simp [postVote, hl, hE]
      | some E =>
        have hst : st = { Votes := st.Votes, locked := false } := by
          cases st; simp_all
        rw [hst, postVote_some L st.Votes E hE]
        rcases respondWithJSON_cases L 200
          (Payload.votes (st.Votes ++ [createVote L E req.Value t])) with h | h <;> simp [h]

/-! ## The validator and the factory -/

/-- Claim C1. `validateVote c p` is true exactly when the three checks hold together:
`c.Index == p.Index + 1` (Go's `+` on `int`), `c.PrevHash == p.Hash`, and
`generateHash(c) == c.Hash`; it is false exactly when at least one of them fails. -/
theorem validateVote_iff {Time : Type} (L : Lib Time) (c p : Vote Time) :
    (validateVote L c p = true ↔
      (c.Index = addInt p.Index 1 ∧ c.PrevHash = p.Hash ∧ generateHash L c = c.Hash)) ∧
    (validateVote L c p = false ↔
      (c.Index ≠ addInt p.Index 1 ∨ c.PrevHash ≠ p.Hash ∨ generateHash L c ≠ c.Hash)) := by
  unfold validateVote
  by_cases h1 : addInt p.Index 1 = c.Index
  · by_cases h2 : p.Hash = c.PrevHash
    · by_cases h3 : generateHash L c = c.Hash
      · simp [h1, h2, h3]
      · simp [h1, h2, h3]
    · have h2' : ¬ c.PrevHash = p.Hash := fun h => h2 h.symm
      simp [h1, h2, h2']
  · have h1' : ¬ c.Index = addInt p.Index 1 := fun h => h1 h.symm
    simp [h1, h1']

/-- Claim C6. `createVote p s`, run at time `t`, returns the vote with
`Index = p.Index + 1` (Go's `+`), `Timestamp = t`, `Value = s`, `PrevHash = p.Hash`, and
`Hash` the SHA-256 hex text of exactly these four fields (which is `generateHash` of the
returned vote); it is a total function of any predecessor, with no check on it. -/
theorem createVote_fields {Time : Type} (L : Lib Time) (p : Vote Time) (s : String)
    (t : Time) :
    (createVote L p s t).Index = addInt p.Index 1 ∧
    (createVote L p s t).Timestamp = t ∧
    (createVote L p s t).Value = s ∧
    (createVote L p s t).PrevHash = p.Hash ∧
    (createVote L p s t).Hash =
      L.sha256Hex (intString (addInt p.Index 1) ++ L.timeString t ++ s ++ p.Hash) ∧
    (createVote L p s t).Hash = generateHash L (createVote L p s t) :=
  ⟨rfl, rfl, rfl, rfl, rfl, rfl⟩

/-- Claim C7. Run from the state at process start (empty chain, free mutex) at any time
`t`, the genesis goroutine returns and leaves a chain of exactly one entry, with
`Index = 0`, `Value = ""`, `PrevHash = ""`, `Timestamp = t` and `Hash` equal to
`generateHash` of the vote `(0, t, "", "")`. -/
theorem genesis_chain {Time : Type} (L : Lib Time) (t : Time) :
    (genesis L (Store.initial Time) t).1 = Result.returned ∧
    ∃ g : Vote Time, (genesis L (Store.initial Time) t).2.Votes = [g] ∧
      g.Index = 0 ∧ g.Value = "" ∧ g.PrevHash = "" ∧ g.Timestamp = t ∧
      g.Hash = generateHash L
        { Index := 0, Timestamp := t, Value := "", Hash := "", PrevHash := "" } ∧
      g.Hash = L.sha256Hex ("0" ++ L.timeString t) ∧
      ((genesis L (Store.initial Time) t).2.Votes).length = 1 := by
  have h0 : intString 0 = "0" := by decide
  refine ⟨rfl, _, rfl, rfl, rfl, rfl, rfl, rfl, ?_, rfl⟩
  simp [generateHash, hashInput, h0]

/-- Claim C10. `generateHash` hashes the plain concatenation of the texts of `Index`,
`Timestamp`, `Value` and `PrevHash`, so only the concatenation `Value ++ PrevHash` of the
last two reaches the digest: for every index and timestamp the votes with
`(Value, PrevHash) = ("ab", "")` and `("a", "b")` are different pairs with equal
`generateHash`. -/
theorem generateHash_boundary_collision {Time : Type} (L : Lib Time) :
    (∀ v : Vote Time, generateHash L v =
      L.sha256Hex (intString v.Index ++ L.timeString v.Timestamp ++ v.Value ++ v.PrevHash)) ∧
    (∀ (i : Int) (t : Time) (h h2 : String), ∃ v w : Vote Time,
      v = { Index := i, Timestamp := t, Value := "ab", Hash := h, PrevHash := "" } ∧
      w = { Index := i, Timestamp := t, Value := "a", Hash := h2, PrevHash := "b" } ∧
      v.Index = w.Index ∧ v.Timestamp = w.Timestamp ∧
      (v.Value, v.PrevHash) ≠ (w.Value, w.PrevHash) ∧
      hashInput L v = hashInput L w ∧
      generateHash L v = generateHash L w) := by
  refine ⟨fun _ => rfl, fun i t h h2 => ⟨_, _, rfl, rfl, rfl, rfl, by simp, ?_, ?_⟩⟩
  · simp [hashInput, String.append_assoc]
  · simp [generateHash, hashInput, String.append_assoc]

/-- Known answers of the concrete SHA-256. -/
theorem sha256_known_answers :
    Sha256.hexOfString "" =
      "e3b0c44298fc1c149afbf4c8996fb92427ae41e4649b934ca495991b7852b855" ∧
    Sha256.hexOfString "abc" =
      "ba7816bf8f01cfea414140de5dae2223b00361a396177a9cb410ff61f20015ad" ∧
    Sha256.hexOfString "abcdbcdecdefdefgefghfghighijhijkijkljklmklmnlmnomnopnopq" =
      "248d6a61d20638b8e5c026930c3e6039a33ce45964ff2167f6ecedd419db06c1" := by
  decide

/-- The three rejections of `validateVote` on the sample chain: a candidate with index
`E.Index + 2`, one with a foreign `PrevHash`, and one whose value was changed after
hashing are each rejected, while the untouched candidate is accepted. -/
theorem validateVote_samples :
    validateVote stdLib (createVote stdLib sampleGenesis "yes" sampleTime) sampleGenesis =
      true ∧
    validateVote stdLib
      { createVote stdLib sampleGenesis "yes" sampleTime with Index := 2 } sampleGenesis =
      false ∧
    validateVote stdLib
      { createVote stdLib sampleGenesis "yes" sampleTime with PrevHash := "00" }
      sampleGenesis = false ∧
    validateVote stdLib sampleTampered sampleGenesis = false := by
  decide

/-! ## The handler -/

theorem sampleChain_eq : sampleChain = [sampleGenesis] := by decide

theorem sampleStore_last : sampleStore.Votes.getLast? = some sampleGenesis := by decide

/-- Claim C2. On a store whose chain is non-empty with last entry `E` (the mutex free, so
that `Lock` returns), `postVote` with a decoded body of value `x` at clock value `t`
accepts: `validateVote(createVote(E, x), E)` is true, the new chain is the old chain
followed by exactly one new tail, the tail has `Index = E.Index + 1` (Go's `+`),
`PrevHash = E.Hash`, `Value = x` and `Hash = generateHash` of itself, the length has grown
by exactly one, and the run answers through `respondWithJSON` with 200 and the new chain. -/
theorem postVote_accepts {Time : Type} (L : Lib Time) (st : Store Time) (E : Vote Time)
    (x : String) (t : Time) (hfree : st.locked = false)
    (hE : st.Votes.getLast? = some E) :
    validateVote L (createVote L E x t) E = true ∧
    ∃ tail : Vote Time,
      (postVote L st (some { Value := x }) t).2.Votes = st.Votes ++ [tail] ∧
      tail = createVote L E x t ∧
      tail.Index = addInt E.Index 1 ∧
      tail.PrevHash = E.Hash ∧
      tail.Value = x ∧
      tail.Hash = generateHash L tail ∧
      (postVote L st (some { Value := x }) t).2.Votes.length = st.Votes.length + 1 ∧
      (postVote L st (some { Value := x }) t).1 =
        Result.responded (respondWithJSON L 200 (Payload.votes (st.Votes ++ [tail]))) := by
  have hst : st = { Votes := st.Votes, locked := false } := by
    cases st; simp_all
  refine ⟨validateVote_createVote L E x t, createVote L E x t, ?_, rfl, rfl, rfl, rfl, rfl,
    ?_, ?_⟩
  · rw [hst, postVote_some L st.Votes E hE]
  · rw [hst, postVote_some L st.Votes E hE]; simp
  · rw [hst, postVote_some L st.Votes E hE]

/-- Witness of C2 on the sample genesis chain with real SHA-256: the vote "yes" is
appended as entry 1, linked to the genesis hash. -/
theorem postVote_accepts_witness :
    sampleStore.locked = false ∧
    sampleStore.Votes.getLast? = some sampleGenesis ∧
    validateVote stdLib (createVote stdLib sampleGenesis "yes" sampleTime) sampleGenesis = true ∧
    (postVote stdLib sampleStore (some { Value := "yes" }) sampleTime).2.Votes =
      [sampleGenesis,
        { Index := 1
          Timestamp := sampleTime
          Value := "yes"
          Hash := "81efaf54fbeaad179efa85663ad9d05a0661107197301abd23a3b9a2795d4d89"
          PrevHash := "1bf2a219c06bbde9fcc957f0b394926b207072066e0d8ad9df2d361092e86bac" }] := by
  have h := postVote_accepts stdLib sampleStore sampleGenesis "yes" sampleTime rfl
    sampleStore_last
  refine ⟨rfl, sampleStore_last, h.1, ?_⟩
  obtain ⟨tail, hvotes, htail, -⟩ := h.2
  rw [hvotes, htail]
  decide

/-- Claim C4. For every store with a non-empty chain and every request, the chain
before `postVote` is a prefix of the chain after it; the chain is one entry longer when
the call answers 200 and is unchanged when it answers 422 or 400. The same holds for
the handler body under any validation verdict (`postVoteWith`), so a rejected candidate
is never appended. With the mutex free the call does answer. -/
theorem postVote_append_only {Time : Type} (L : Lib Time) (st : Store Time)
    (body : Option Request) (t : Time) (hne : st.Votes ≠ []) :
    AppendOnly st (postVote L st body t) ∧
    (∀ V : Vote Time → Vote Time → Bool, AppendOnly st (postVoteWith L V st body t)) ∧
    (st.locked = false → ∃ code, (postVote L st body t).1 = Result.responded code) := by
  refine ⟨appendOnly_postVoteWith L (validateVote L) st body t hne,
    fun V => appendOnly_postVoteWith L V st body t hne, fun hfree => ?_⟩
  obtain ⟨E, hE⟩ := getLast?_of_ne_nil st.Votes hne
  have hst : st = { Votes := st.Votes, locked := false } := by
    cases st; simp_all
  cases body with
  | none => exact ⟨_, rfl⟩
  | some req => rw [hst, postVote_some L st.Votes E hE]; exact ⟨_, rfl⟩

/-- Witness of C4 on the sample chain: an accepted vote answers 200 with one more entry,
an undecodable body answers 400 with the chain unchanged, and under a verdict that
rejects, the handler body answers 422 with the chain unchanged. -/
theorem postVote_append_only_witness :
    sampleStore.Votes ≠ [] ∧
    ((postVote stdLib sampleStore (some { Value := "yes" }) sampleTime).1 =
        Result.responded 200 ∧
      (postVote stdLib sampleStore (some { Value := "yes" }) sampleTime).2.Votes.length =
        sampleStore.Votes.length + 1) ∧
    ((postVote stdLib sampleStore none sampleTime).1 = Result.responded 400 ∧
      (postVote stdLib sampleStore none sampleTime).2.Votes = sampleStore.Votes) ∧
    ((postVoteWith stdLib (fun _ _ => false) sampleStore (some { Value := "yes" })
        sampleTime).1 = Result.responded 422 ∧
      (postVoteWith stdLib (fun _ _ => false) sampleStore (some { Value := "yes" })
        sampleTime).2.Votes = sampleStore.Votes) := by
  have hne : sampleStore.Votes ≠ [] := by decide
  have h200 : (postVote stdLib sampleStore (some { Value := "yes" }) sampleTime).1 =
      Result.responded 200 := by decide
  have h422 : (postVoteWith stdLib (fun _ _ => false) sampleStore (some { Value := "yes" })
      sampleTime).1 = Result.responded 422 := by decide
  exact ⟨hne,
    ⟨h200, (postVote_append_only stdLib sampleStore (some { Value := "yes" }) sampleTime
      hne).1.2.1 h200⟩,
    ⟨rfl, (postVote_append_only stdLib sampleStore none sampleTime hne).1.2.2.2 rfl⟩,
    ⟨h422, ((postVote_append_only stdLib sampleStore (some { Value := "yes" }) sampleTime
      hne).2.1 (fun _ _ => false)).2.2.1 h422⟩⟩

/-! ## The mutex -/

theorem postVote_usable {Time : Type} (L : Lib Time) (st : Store Time)
    (body : Option Request) (t : Time) (hne : st.Votes ≠ []) (hfree : st.locked = false) :
    (postVote L st body t).2.locked = false ∧ (postVote L st body t).2.Votes ≠ [] ∧
      ∃ code, (postVote L st body t).1 = Result.responded code := by
  obtain ⟨E, hE⟩ := getLast?_of_ne_nil st.Votes hne
  have hst : st = { Votes := st.Votes, locked := false } := by
    cases st; simp_all
  cases body with
  | none => exact ⟨hfree, hne, _, rfl⟩
  | some req =>
    rw [hst, postVote_some L st.Votes E hE]
    exact ⟨rfl, by simp, _, rfl⟩

theorem postVotes_usable {Time : Type} (L : Lib Time) (calls : List (Option Request × Time)) :
    ∀ st : Store Time, st.Votes ≠ [] → st.locked = false →
      (postVotes L st calls).locked = false ∧ (postVotes L st calls).Votes ≠ [] := by
  induction calls with
  | nil => intro st hne hfree; exact ⟨hfree, hne⟩
  | cons call rest ih =>
    intro st hne hfree
    have h := postVote_usable L st call.1 call.2 hne hfree
    exact ih (postVote L st call.1 call.2).2 h.2.1 h.1

/-- Claim C5. From every state with a non-empty chain and a free mutex, and for every
request (decodable or not), `postVote` answers and ends with the mutex free and the
chain non-empty; hence the next call, whatever its request, is not blocked and answers
too, and the same holds after any sequence of calls. -/
theorem postVote_releases_mutex {Time : Type} (L : Lib Time) (st : Store Time)
    (body : Option Request) (t : Time) (hne : st.Votes ≠ []) (hfree : st.locked = false) :
    (postVote L st body t).2.locked = false ∧
    (postVote L st body t).2.Votes ≠ [] ∧
    (∃ code, (postVote L st body t).1 = Result.responded code) ∧
    (∀ (body2 : Option Request) (t2 : Time),
      ∃ code, (postVote L (postVote L st body t).2 body2 t2).1 = Result.responded code) ∧
    (∀ calls : List (Option Request × Time),
      (postVotes L st calls).locked = false ∧ (postVotes L st calls).Votes ≠ []) := by
  have h := postVote_usable L st body t hne hfree
  exact ⟨h.1, h.2.1, h.2.2,
    fun body2 t2 => (postVote_usable L (postVote L st body t).2 body2 t2 h.2.1 h.1).2.2,
    fun calls => postVotes_usable L calls st hne hfree⟩

/-- Witness of C5 on the sample chain, for an undecodable body. -/
theorem postVote_releases_mutex_witness :
    sampleStore.Votes ≠ [] ∧ sampleStore.locked = false ∧
    (postVote stdLib sampleStore none sampleTime).2.locked = false ∧
    (postVotes stdLib sampleStore
      [(none, sampleTime), (some { Value := "yes" }, sampleTime), (none, sampleTime),
        (some { Value := "no" }, sampleTime)]).locked = false :=
  ⟨by decide, rfl,
    (postVote_releases_mutex stdLib sampleStore none sampleTime (by decide) rfl).1,
    ((postVote_releases_mutex stdLib sampleStore none sampleTime (by decide) rfl).2.2.2.2
      _).1⟩

/-! ## The chain invariant -/

theorem getLast?_eq_get {Time : Type} (c : List (Vote Time)) (E : Vote Time)
    (hE : c.getLast? = some E) :
    ∃ h : c.length - 1 < c.length, c.get ⟨c.length - 1, h⟩ = E := by
  rw [List.getLast?_eq_getElem?] at hE
  obtain ⟨h, hget⟩ := List.getElem?_eq_some_iff.mp hE
  exact ⟨h, by simpa using hget⟩

theorem chainInvariant_append {Time : Type} (L : Lib Time) (c : List (Vote Time))
    (E : Vote Time) (x : String) (t : Time) (hinv : ChainInvariant L c)
    (hE : c.getLast? = some E) : ChainInvariant L (c ++ [createVote L E x t]) := by
  obtain ⟨hne, hidx, hlink, hhash⟩ := hinv
  obtain ⟨hlast, hEget⟩ := getLast?_eq_get c E hE
  have hEidx : E.Index = wrapInt ((c.length - 1 : Nat) : Int) := by
    rw [← hEget]; exact hidx _ hlast
  refine ⟨by simp, ?_, ?_, ?_⟩
  · intro i h
    by_cases hi : i < c.length
    · have := hidx i hi
      simpa [List.getElem_append_left hi] using this
    · have hi2 : i = c.length := by
        simp at h; omega
      subst hi2
      simp only [List.get_eq_getElem, List.getElem_concat_length]
      show addInt E.Index 1 = _
      rw [hEidx, addInt, wrapInt_wrapInt_add]
      congr 1
      omega
  · intro i h
    by_cases hi : i + 1 < c.length
    · have := hlink i hi
      simpa [List.getElem_append_left hi, List.getElem_append_left (Nat.lt_of_succ_lt hi)]
        using this
    · have hi2 : i + 1 = c.length := by
        simp at h; omega
      have hi3 : i = c.length - 1 := by omega
      subst hi3
      have hlt : c.length - 1 < c.length := hlast
      simp only [List.get_eq_getElem, List.getElem_concat_length, hi2,
        List.getElem_append_left hlt]
      show E.Hash = _
      rw [← hEget]
      simp
  · intro i h
    by_cases hi : i < c.length
    · have := hhash i hi
      simpa [List.getElem_append_left hi] using this
    · have hi2 : i = c.length := by
        simp at h; omega
      subst hi2
      simp only [List.get_eq_getElem, List.getElem_concat_length]
      rfl

theorem chainInvariant_genesis {Time : Type} (L : Lib Time) (t : Time) :
    ChainInvariant L (genesis L (Store.initial Time) t).2.Votes := by
  refine ⟨by simp [genesis, Store.initial], ?_, ?_, ?_⟩
  · intro i h
    have hi : i = 0 := by
      simp [genesis, Store.initial] at h; exact h
    subst hi
    simp [genesis, Store.initial, wrapInt]
  · intro i h
    simp [genesis, Store.initial] at h
  · intro i h
    have hi : i = 0 := by
      simp [genesis, Store.initial] at h; exact h
    subst hi
    simp [genesis, Store.initial, generateHash, hashInput]

theorem chainInvariant_postVote {Time : Type} (L : Lib Time) (st : Store Time)
    (body : Option Request) (t : Time) (hinv : ChainInvariant L st.Votes) :
    ChainInvariant L (postVote L st body t).2.Votes := by
  obtain ⟨E, hE⟩ := getLast?_of_ne_nil st.Votes hinv.1
  cases body with
  | none => exact hinv
  | some req =>
    by_cases hl : st.locked = true
    · rw [postVote_blocked L st hl]; exact hinv
    · have hst : st = { Votes := st.Votes, locked := false } := by
        cases st; simp_all
      rw [hst, postVote_some L st.Votes E hE]
      exact chainInvariant_append L st.Votes E req.Value t hinv hE

theorem chainInvariant_of_reachable {Time : Type} (L : Lib Time) (st : Store Time)
    (hreach : Reachable L st) : ChainInvariant L st.Votes := by
  induction hreach with
  | init t => exact chainInvariant_genesis L t
  | post st body t _ ih => exact chainInvariant_postVote L st body t ih

/-- Claim C3. Every state reachable from process start (genesis on the empty chain, then
any number of `postVote` calls) satisfies the chain invariants: the chain is non-empty,
the entry at position `i` has `Index == i` (as a Go `int`; literally `i` for every
position below 2^63, the only positions a Go slice has), each later entry's `PrevHash`
is its predecessor's `Hash`, and each entry's `Hash` is `generateHash` of the entry.
Equivalently the genesis chain satisfies the invariant and `postVote` preserves it. -/
theorem reachable_chain_invariant {Time : Type} (L : Lib Time) (st : Store Time)
    (hreach : Reachable L st) :
    ChainInvariant L st.Votes ∧
    (∀ (i : Nat) (h : i < st.Votes.length), i < 9223372036854775808 →
      (st.Votes.get ⟨i, h⟩).Index = (i : Int)) ∧
    (∀ t : Time, ChainInvariant L (genesis L (Store.initial Time) t).2.Votes) ∧
    (∀ (s : Store Time) (body : Option Request) (t : Time),
      ChainInvariant L s.Votes → ChainInvariant L (postVote L s body t).2.Votes) := by
  have hinv := chainInvariant_of_reachable L st hreach
  refine ⟨hinv, fun i h hi => ?_, chainInvariant_genesis L,
    fun s body t => chainInvariant_postVote L s body t⟩
  rw [hinv.2.1 i h]
  exact wrapInt_of_range _ (by omega) (by omega)

/-- Witness of C3: the state after genesis and one accepted vote is reachable, its chain
satisfies the invariant, and its two entries carry the indices 0 and 1. -/
theorem reachable_chain_invariant_witness :
    Reachable stdLib sampleReached ∧ ChainInvariant stdLib sampleReached.Votes ∧
    sampleReached.Votes.map (fun v => v.Index) = [0, 1] :=
  ⟨Reachable.post _ _ _ (Reachable.init _),
    (reachable_chain_invariant stdLib sampleReached
      (Reachable.post _ _ _ (Reachable.init _))).1, by decide⟩

/-! ## The hash input -/

theorem digitChar_toNat (d : Nat) (h : d < 10) : (Nat.digitChar d).toNat - 48 = d := by
  interval_cases d <;> rfl

theorem digitChar_ne_minus (d : Nat) (h : d < 10) : Nat.digitChar d ≠ '-' := by
  interval_cases d <;> decide

theorem foldl_toDigitsCore (fuel : Nat) :
    ∀ (n : Nat) (ds : List Char), n < fuel →
      List.foldl (fun acc c => 10 * acc + (c.toNat - 48)) 0 (Nat.toDigitsCore 10 fuel n ds) =
        List.foldl (fun acc c => 10 * acc + (c.toNat - 48)) n ds := by
  induction fuel with
  | zero => intro n ds h; omega
  | succ fuel ih =>
    intro n ds h
    have hd := digitChar_toNat (n % 10) (Nat.mod_lt _ (by decide))
    by_cases h0 : n / 10 = 0
    · have hn : n % 10 = n := by omega
      rw [hn] at hd
      simp [Nat.toDigitsCore, h0, hd, hn]
    · have hlt : n / 10 < fuel := by omega
      simp only [Nat.toDigitsCore, h0, if_false]
      rw [ih (n / 10) _ hlt]
      simp only [List.foldl_cons, hd]
      congr 1
      omega

theorem digitsValue_toDigits (n : Nat) : digitsValue (Nat.toDigits 10 n) = n := by
  unfold digitsValue Nat.toDigits
  rw [foldl_toDigitsCore (n + 1) n [] (by omega)]
  rfl

theorem head_toDigitsCore (fuel : Nat) :
    ∀ (n : Nat) (ds : List Char), ds.head? ≠ some '-' →
      (Nat.toDigitsCore 10 fuel n ds).head? ≠ some '-' := by
  induction fuel with
  | zero => intro n ds h; simpa [Nat.toDigitsCore] using h
  | succ fuel ih =>
    intro n ds _
    have hd := digitChar_ne_minus (n % 10) (Nat.mod_lt _ (by decide))
    by_cases h0 : n / 10 = 0
    · simp [Nat.toDigitsCore, h0, hd]
    · simp only [Nat.toDigitsCore, h0, if_false]
      exact ih (n / 10) _ (by simp [hd])

theorem numeralValue_intString (i : Int) : numeralValue (intString i) = i := by
  cases i with
  | ofNat m =>
    have hdata : (intString (Int.ofNat m)).data = Nat.toDigits 10 m := rfl
    have hhead := head_toDigitsCore (m + 1) m [] (by simp)
    have hval := digitsValue_toDigits m
    unfold numeralValue
    rw [hdata]
    unfold Nat.toDigits at hval ⊢
    generalize Nat.toDigitsCore 10 (m + 1) m [] = cs at hhead hval
    cases cs with
    | nil => simp [← hval]
    | cons c cs =>
      have hc : c ≠ '-' := by simpa using hhead
      split
      · rename_i heq
        exact absurd (List.cons.inj heq).1 hc
      · simp [hval]
  | negSucc m =>
    have hdata : (intString (Int.negSucc m)).data = '-' :: Nat.toDigits 10 (m + 1) := rfl
    unfold numeralValue
    rw [hdata]
    simp only [digitsValue_toDigits]
    rfl

theorem intString_injective (i j : Int) (h : intString i = intString j) : i = j := by
  rw [← numeralValue_intString i, ← numeralValue_intString j, h]

theorem string_append_left_cancel (a b c : String) (h : a ++ b = a ++ c) : b = c := by
  have hd := congrArg String.data h
  simp only [String.data_append] at hd
  exact String.ext (List.append_cancel_left hd)

theorem string_append_right_cancel (a b c : String) (h : a ++ c = b ++ c) : a = b := by
  have hd := congrArg String.data h
  simp only [String.data_append] at hd
  exact String.ext (List.append_cancel_right hd)

theorem hashInput_ne {Time : Type} (L : Lib Time) (v w : Vote Time)
    (hdiff : DifferInOneField v w)
    (htime : v.Timestamp ≠ w.Timestamp → L.timeString v.Timestamp ≠ L.timeString w.Timestamp) :
    hashInput L v ≠ hashInput L w := by
  intro heq
  unfold hashInput at heq
  rcases hdiff with ⟨hi, ht, hv, hp⟩ | ⟨hi, ht, hv, hp⟩ | ⟨hi, ht, hv, hp⟩ | ⟨hi, ht, hv, hp⟩
  · rw [ht, hv, hp] at heq
    have h1 := string_append_right_cancel _ _ _ heq
    have h2 := string_append_right_cancel _ _ _ h1
    have h3 := string_append_right_cancel _ _ _ h2
    exact hi (intString_injective _ _ h3)
  · rw [hi, hv, hp] at heq
    have h1 := string_append_right_cancel _ _ _ heq
    have h2 := string_append_right_cancel _ _ _ h1
    exact htime ht (string_append_left_cancel _ _ _ h2)
  · rw [hi, ht, hp] at heq
    have h1 := string_append_right_cancel _ _ _ heq
    exact hv (string_append_left_cancel _ _ _ h1)
  · rw [hi, ht, hv] at heq
    exact hp (string_append_left_cancel _ _ _ heq)

/-- Claim C8. `generateHash` is a function of `Index`, `Timestamp`, `Value` and
`PrevHash` only (the `Hash` field of its argument is not read), and for two votes that
differ in exactly one of these four fields the strings fed to SHA-256 differ, and so do
the returned hashes, taking the timestamps' printed texts as distinct when the
timestamps are, and SHA-256 as not colliding on the two strings. -/
theorem generateHash_sensitive {Time : Type} (L : Lib Time) (v w : Vote Time)
    (hdiff : DifferInOneField v w)
    (htime : v.Timestamp ≠ w.Timestamp → L.timeString v.Timestamp ≠ L.timeString w.Timestamp)
    (hsha : hashInput L v ≠ hashInput L w →
      L.sha256Hex (hashInput L v) ≠ L.sha256Hex (hashInput L w)) :
    (∀ h : String, generateHash L { v with Hash := h } = generateHash L v) ∧
    (∀ u : Vote Time, u.Index = v.Index ∧ u.Timestamp = v.Timestamp ∧ u.Value = v.Value ∧
      u.PrevHash = v.PrevHash → generateHash L u = generateHash L v) ∧
    hashInput L v ≠ hashInput L w ∧
    generateHash L v ≠ generateHash L w := by
  refine ⟨fun _ => rfl, fun u hu => ?_, hashInput_ne L v w hdiff htime,
    hsha (hashInput_ne L v w hdiff htime)⟩
  obtain ⟨h1, h2, h3, h4⟩ := hu
  simp [generateHash, hashInput, h1, h2, h3, h4]

/-- Witness of C8 under SHA-256: changing the value "yes" to "no", or the timestamp by one
second, changes the hash of the sample vote. -/
theorem generateHash_sensitive_witness :
    (DifferInOneField sampleVote sampleVoteNo ∧
      generateHash stdLib sampleVote ≠ generateHash stdLib sampleVoteNo) ∧
    (DifferInOneField sampleVote sampleVoteLater ∧
      generateHash stdLib sampleVote ≠ generateHash stdLib sampleVoteLater) :=
  ⟨⟨Or.inr (Or.inr (Or.inl ⟨rfl, rfl, by decide, rfl⟩)),
      (generateHash_sensitive stdLib sampleVote sampleVoteNo
        (Or.inr (Or.inr (Or.inl ⟨rfl, rfl, by decide, rfl⟩)))
        (fun h => absurd rfl h) (fun _ => by decide)).2.2.2⟩,
    ⟨Or.inr (Or.inl ⟨rfl, by decide, rfl, rfl⟩),
      (generateHash_sensitive stdLib sampleVote sampleVoteLater
        (Or.inr (Or.inl ⟨rfl, by decide, rfl, rfl⟩))
        (fun _ => by decide) (fun _ => by decide)).2.2.2⟩⟩

/-! ## Sequences of calls -/

theorem postVotes_length {Time : Type} (L : Lib Time)
    (calls : List (Option Request × Time)) :
    ∀ st : Store Time, st.Votes ≠ [] → st.locked = false →
      (∀ call ∈ calls, call.1 ≠ none) →
      (postVotes L st calls).Votes.length = st.Votes.length + calls.length := by
  induction calls with
  | nil => intro st _ _ _; rfl
  | cons call rest ih =>
    intro st hne hfree hall
    have hu := postVote_usable L st call.1 call.2 hne hfree
    obtain ⟨E, hE⟩ := getLast?_of_ne_nil st.Votes hne
    have hst : st = { Votes := st.Votes, locked := false } := by
      cases st; simp_all
    have hlen : (postVote L st call.1 call.2).2.Votes.length = st.Votes.length + 1 := by
      cases hb : call.1 with
      | none => exact absurd hb (hall call (by simp))
      | some req => rw [hst, postVote_some L st.Votes E hE]; simp
    have ht := ih (postVote L st call.1 call.2).2 hu.2.1 hu.1
      (fun c hc => hall c (by simp [hc]))
    show (postVotes L (postVote L st call.1 call.2).2 rest).Votes.length = _
    rw [ht, hlen, List.length_cons]
    omega

/-! ## Concurrent handlers: the invariant -/

theorem countP_set_add {α : Type} (f : α → Bool) :
    ∀ (l : List α) (i : Nat) (a b : α), l[i]? = some a →
      (l.set i b).countP f + (f a).toNat = l.countP f + (f b).toNat := by
  intro l
  induction l with
  | nil => intro i a b h; simp at h
  | cons x xs ih =>
    intro i a b h
    cases i with
    | zero =>
      simp only [List.getElem?_cons_zero, Option.some.injEq] at h
      subst h
      simp only [List.set_cons_zero, List.countP_cons]
      cases f x <;> cases f b <;> simp
    | succ k =>
      simp only [List.getElem?_cons_succ] at h
      have := ih k a b h
      simp only [List.set_cons_succ, List.countP_cons]
      omega

theorem sum_map_set_add {α : Type} (f : α → Nat) :
    ∀ (l : List α) (i : Nat) (a b : α), l[i]? = some a →
      ((l.set i b).map f).sum + f a = (l.map f).sum + f b := by
  intro l
  induction l with
  | nil => intro i a b h; simp at h
  | cons x xs ih =>
    intro i a b h
    cases i with
    | zero =>
      simp only [List.getElem?_cons_zero, Option.some.injEq] at h
      subst h
      simp only [List.set_cons_zero, List.map_cons, List.sum_cons]
      omega
    | succ k =>
      simp only [List.getElem?_cons_succ] at h
      have := ih k a b h
      simp only [List.set_cons_succ, List.map_cons, List.sum_cons]
      omega

theorem getElem?_set_cases {α : Type} (l : List α) (i j : Nat) (b r : α)
    (h : (l.set i b)[j]? = some r) : (j = i ∧ r = b) ∨ (j ≠ i ∧ l[j]? = some r) := by
  by_cases hji : j = i
  · subst hji
    left
    rw [List.getElem?_set] at h
    simp only [if_true] at h
    split at h
    · exact ⟨rfl, (Option.some.inj h).symm⟩
    · cases h
  · right
    rw [List.getElem?_set_ne (fun e => hji e.symm)] at h
    exact ⟨hji, h⟩

theorem consistent_of_not_critical {Time : Type} (L : Lib Time) (v w : List (Vote Time))
    (p : Phase Time) (hp : p.isCritical = false) (h : Phase.Consistent L v p) :
    Phase.Consistent L w p := by
  cases p <;> simp_all [Phase.isCritical, Phase.Consistent]

theorem ConcInv.update {Time : Type} (L : Lib Time) (votes0 : List (Vote Time)) (n : Nat)
    (s s2 : Store Time) (procs : List (Phase Time)) (i : Nat) (p q : Phase Time)
    (hinv : ConcInv L votes0 n { store := s, procs := procs })
    (hi : procs[i]? = some p)
    (hchain : ChainInvariant L s2.Votes)
    (hpre : votes0 <+: s2.Votes)
    (hlen : s2.Votes.length + (p.hasAppended).toNat = s.Votes.length + (q.hasAppended).toNat)
    (hq : Phase.Consistent L s2.Votes q)
    (hcase : (p.isCritical = true ∧ s2.locked = q.isCritical) ∨
      (p.isCritical = false ∧ s2.Votes = s.Votes ∧
        ((q.isCritical = false ∧ s2.locked = s.locked) ∨
          (q.isCritical = true ∧ s.locked = false ∧ s2.locked = true)))) :
    ConcInv L votes0 n { store := s2, procs := procs.set i q } := by
  have hlt : i < procs.length := (List.getElem?_eq_some_iff.mp hi).1
  have hself : (procs.set i q)[i]? = some q := List.getElem?_set_self hlt
  have hheld := hinv.held
  have hexcl := hinv.excl
  have hwf := hinv.wf
  have hlen0 := hinv.len
  simp only at hheld hexcl hwf hlen0
  refine ⟨hchain, hpre, ?_, ?_, ?_, ?_, ?_⟩
  · have := countP_set_add Phase.hasAppended procs i p q hi
    show s2.Votes.length = votes0.length + (procs.set i q).countP Phase.hasAppended
    omega
  · show (procs.set i q).length = n
    rw [List.length_set]; exact hinv.size
  · show s2.locked = true ↔ ∃ (j : Nat) (r : Phase Time),
      (procs.set i q)[j]? = some r ∧ r.isCritical = true
    constructor
    · intro hl
      rcases hcase with ⟨_, hs⟩ | ⟨hp, _, ⟨hq2, hs⟩ | ⟨hq2, _, _⟩⟩
      · exact ⟨i, q, hself, by rw [← hs]; exact hl⟩
      · obtain ⟨j, r, hj, hr⟩ := hheld.mp (by rw [← hs]; exact hl)
        have hji : i ≠ j := by
          rintro rfl
          rw [hi] at hj
          cases hj
          rw [hp] at hr
          cases hr
        exact ⟨j, r, by rw [List.getElem?_set_ne hji]; exact hj, hr⟩
      · exact ⟨i, q, hself, hq2⟩
    · rintro ⟨j, r, hj, hr⟩
      rcases getElem?_set_cases procs i j q r hj with ⟨_, hrq⟩ | ⟨hne, hold⟩
      · subst hrq
        rcases hcase with ⟨_, hs⟩ | ⟨_, _, ⟨hq2, _⟩ | ⟨_, _, hs1⟩⟩
        · rw [hs]; exact hr
        · rw [hq2] at hr; cases hr
        · exact hs1
      · rcases hcase with ⟨hp, _⟩ | ⟨_, _, ⟨_, hs⟩ | ⟨_, _, hs1⟩⟩
        · exact absurd (hexcl j i r p hold hi hr hp) hne
        · rw [hs]; exact hheld.mpr ⟨j, r, hold, hr⟩
        · exact hs1
  · show ∀ (j k : Nat) (a b : Phase Time), (procs.set i q)[j]? = some a →
      (procs.set i q)[k]? = some b → a.isCritical = true → b.isCritical = true → j = k
    intro j k a b hj hk ha hb
    have others : ∀ (m : Nat) (r : Phase Time), m ≠ i → procs[m]? = some r →
        r.isCritical = true → q.isCritical = true → False := by
      intro m r hm hold hr hqc
      rcases hcase with ⟨hp, _⟩ | ⟨_, _, ⟨hq2, _⟩ | ⟨_, hs0, _⟩⟩
      · exact hm (hexcl m i r p hold hi hr hp)
      · rw [hq2] at hqc; cases hqc
      · have := hheld.mpr ⟨m, r, hold, hr⟩
        rw [hs0] at this; cases this
    rcases getElem?_set_cases procs i j q a hj with ⟨hji, haq⟩ | ⟨hji, holdj⟩
    · rcases getElem?_set_cases procs i k q b hk with ⟨hki, _⟩ | ⟨hki, holdk⟩
      · rw [hji, hki]
      · subst haq; exact absurd (others k b hki holdk hb ha) id
    · rcases getElem?_set_cases procs i k q b hk with ⟨_, hbq⟩ | ⟨_, holdk⟩
      · subst hbq; exact absurd (others j a hji holdj ha hb) id
      · exact hexcl j k a b holdj holdk ha hb
  · show ∀ (j : Nat) (r : Phase Time), (procs.set i q)[j]? = some r →
      Phase.Consistent L s2.Votes r
    intro j r hj
    rcases getElem?_set_cases procs i j q r hj with ⟨_, hrq⟩ | ⟨hne, hold⟩
    · subst hrq; exact hq
    · have hr := hwf j r hold
      rcases hcase with ⟨hp, _⟩ | ⟨_, hv, _⟩
      · have hnc : r.isCritical = false := by
          cases hc : r.isCritical with
          | false => rfl
          | true => exact absurd (hexcl j i r p hold hi hc hp) hne
        exact consistent_of_not_critical L s.Votes s2.Votes r hnc hr
      · rw [hv]; exact hr

theorem step_preserves {Time : Type} (L : Lib Time) (votes0 : List (Vote Time)) (n : Nat)
    (cfg cfg2 : Config Time) (i : Nat) (t : Time) (hinv : ConcInv L votes0 n cfg)
    (hstep : step L cfg i t = some cfg2) : ConcInv L votes0 n cfg2 := by
  obtain ⟨s, procs⟩ := cfg
  have hchain := hinv.chain
  have hpre := hinv.pre
  simp only at hchain hpre
  unfold step at hstep
  simp only at hstep
  cases hi : procs[i]? with
  | none => simp [hi] at hstep
  | some p =>
    have hwf := hinv.wf i p hi
    simp only at hwf
    rw [hi] at hstep
    cases p with
    | start x =>
      simp only at hstep
      cases hl : s.locked with
      | true => simp [hl] at hstep
      | false =>
        simp only [hl, Bool.false_eq_true, if_false, Option.some.injEq] at hstep
        subst hstep
        exact ConcInv.update L votes0 n s _ procs i _ _ hinv hi hchain hpre rfl trivial
          (Or.inr ⟨rfl, rfl, Or.inr ⟨rfl, hl, rfl⟩⟩)
    | locked x =>
      simp only at hstep
      obtain ⟨E, hE⟩ := getLast?_of_ne_nil s.Votes hchain.1
      simp only [hE, Option.some.injEq] at hstep
      subst hstep
      have hheld : s.locked = true := hinv.held.mpr ⟨i, _, hi, rfl⟩
      exact ConcInv.update L votes0 n s s procs i _ _ hinv hi hchain hpre rfl hE
        (Or.inl ⟨rfl, hheld⟩)
    | read x prevVote =>
      simp only [Option.some.injEq] at hstep
      subst hstep
      have hheld : s.locked = true := hinv.held.mpr ⟨i, _, hi, rfl⟩
      exact ConcInv.update L votes0 n s s procs i _ _ hinv hi hchain hpre rfl
        ⟨hwf, x, t, rfl⟩ (Or.inl ⟨rfl, hheld⟩)
    | created prevVote newVote =>
      simp only [Option.some.injEq] at hstep
      subst hstep
      have hheld : s.locked = true := hinv.held.mpr ⟨i, _, hi, rfl⟩
      obtain ⟨hlast, x, t2, hnew⟩ := hwf
      refine ConcInv.update L votes0 n s s procs i _ _ hinv hi hchain hpre rfl
        ⟨?_, prevVote, x, t2, hlast, hnew⟩ (Or.inl ⟨rfl, hheld⟩)
      rw [hnew]; exact validateVote_createVote L prevVote x t2
    | checked newVote valid =>
      obtain ⟨hvalid, prevVote, x, t2, hlast, hnew⟩ := hwf
      subst hvalid
      simp only [Bool.not_true, Bool.false_eq_true, if_false, Option.some.injEq] at hstep
      subst hstep
      have happ : ChainInvariant L (s.Votes ++ [newVote]) := by
        rw [hnew]; exact chainInvariant_append L s.Votes prevVote x t2 hchain hlast
      obtain ⟨r, hr⟩ := hpre
      have hheld : s.locked = true := hinv.held.mpr ⟨i, _, hi, rfl⟩
      exact ConcInv.update L votes0 n s { s with Votes := s.Votes ++ [newVote] } procs i _ _
        hinv hi happ ⟨r ++ [newVote], by rw [← hr, List.append_assoc]⟩
        (by simp [Phase.hasAppended]) trivial (Or.inl ⟨rfl, hheld⟩)
    | appended =>
      simp only [Option.some.injEq] at hstep
      subst hstep
      exact ConcInv.update L votes0 n s { s with locked := false } procs i _ _ hinv hi
        hchain hpre rfl trivial (Or.inl ⟨rfl, rfl⟩)
    | unlocked =>
      simp only [Option.some.injEq] at hstep
      subst hstep
      exact ConcInv.update L votes0 n s s procs i _ _ hinv hi hchain hpre rfl trivial
        (Or.inr ⟨rfl, rfl, Or.inl ⟨rfl, rfl⟩⟩)
    | done code => simp at hstep
    | rejected code => simp at hstep
    | panicked => simp at hstep

theorem concInv_init {Time : Type} (L : Lib Time) (st : Store Time) (xs : List String)
    (hinv : ChainInvariant L st.Votes) (hfree : st.locked = false) :
    ConcInv L st.Votes xs.length (Config.init st xs) := by
  have hphase : ∀ (i : Nat) (p : Phase Time), (xs.map Phase.start)[i]? = some p →
      ∃ x, p = Phase.start x := by
    intro i p h
    rw [List.getElem?_map] at h
    cases hx : xs[i]? with
    | none => rw [hx] at h; cases h
    | some x => rw [hx] at h; exact ⟨x, (Option.some.inj h).symm⟩
  refine ⟨hinv, ⟨[], by simp [Config.init]⟩, ?_, by simp [Config.init], ?_, ?_, ?_⟩
  · have h0 : (xs.map (Phase.start : String → Phase Time)).countP Phase.hasAppended = 0 := by
      rw [List.countP_eq_zero]
      intro p hp
      obtain ⟨x, _, rfl⟩ := List.mem_map.mp hp
      simp [Phase.hasAppended]
    show st.Votes.length = st.Votes.length + _
    simp only [Config.init, h0, Nat.add_zero]
  · constructor
    · intro h
      rw [show (Config.init st xs).store.locked = st.locked from rfl, hfree] at h
      cases h
    · rintro ⟨i, p, hp, hc⟩
      obtain ⟨x, rfl⟩ := hphase i p hp
      cases hc
  · intro i j p q hp _ hc _
    obtain ⟨x, rfl⟩ := hphase i p hp
    cases hc
  · intro i p hp
    obtain ⟨x, rfl⟩ := hphase i p hp
    trivial

theorem run_preserves {Time : Type} (L : Lib Time) (votes0 : List (Vote Time)) (n : Nat)
    (sched : List (Nat × Time)) :
    ∀ cfg : Config Time, ConcInv L votes0 n cfg → ConcInv L votes0 n (run L cfg sched) := by
  induction sched with
  | nil => intro cfg h; exact h
  | cons item rest ih =>
    intro cfg h
    show ConcInv L votes0 n (run L ((step L cfg item.1 item.2).getD cfg) rest)
    apply ih
    cases hs : step L cfg item.1 item.2 with
    | none => exact h
    | some cfg2 => exact step_preserves L votes0 n cfg cfg2 item.1 item.2 h hs

theorem run_append {Time : Type} (L : Lib Time) (cfg : Config Time)
    (s1 s2 : List (Nat × Time)) : run L cfg (s1 ++ s2) = run L (run L cfg s1) s2 := by
  simp [run, List.foldl_append]

theorem step_remaining {Time : Type} (L : Lib Time) (votes0 : List (Vote Time)) (n : Nat)
    (cfg cfg2 : Config Time) (i : Nat) (t : Time) (hinv : ConcInv L votes0 n cfg)
    (hstep : step L cfg i t = some cfg2) : cfg2.remaining + 1 = cfg.remaining := by
  obtain ⟨s, procs⟩ := cfg
  have hchain := hinv.chain
  simp only at hchain
  unfold step at hstep
  simp only at hstep
  cases hi : procs[i]? with
  | none => simp [hi] at hstep
  | some p =>
    have hwf := hinv.wf i p hi
    simp only at hwf
    rw [hi] at hstep
    have key : ∀ q : Phase Time, q.remaining + 1 = p.remaining →
        ((procs.set i q).map Phase.remaining).sum + 1 = (procs.map Phase.remaining).sum := by
      intro q hq
      have := sum_map_set_add Phase.remaining procs i p q hi
      omega
    cases p with
    | start x =>
      simp only at hstep
      cases hl : s.locked with
      | true => simp [hl] at hstep
      | false =>
        simp only [hl, Bool.false_eq_true, if_false, Option.some.injEq] at hstep
        subst hstep
        exact key _ rfl
    | locked x =>
      simp only at hstep
      obtain ⟨E, hE⟩ := getLast?_of_ne_nil s.Votes hchain.1
      simp only [hE, Option.some.injEq] at hstep
      subst hstep
      exact key _ rfl
    | read x prevVote =>
      simp only [Option.some.injEq] at hstep
      subst hstep
      exact key _ rfl
    | created prevVote newVote =>
      simp only [Option.some.injEq] at hstep
      subst hstep
      exact key _ rfl
    | checked newVote valid =>
      obtain ⟨hvalid, -⟩ := hwf
      subst hvalid
      simp only [Bool.not_true, Bool.false_eq_true, if_false, Option.some.injEq] at hstep
      subst hstep
      exact key _ rfl
    | appended =>
      simp only [Option.some.injEq] at hstep
      subst hstep
      exact key _ rfl
    | unlocked =>
      simp only [Option.some.injEq] at hstep
      subst hstep
      exact key _ rfl
    | done code => simp at hstep
    | rejected code => simp at hstep
    | panicked => simp at hstep

theorem exists_step {Time : Type} (L : Lib Time) (votes0 : List (Vote Time)) (n : Nat)
    (cfg : Config Time) (t : Time) (hinv : ConcInv L votes0 n cfg)
    (hnd : cfg.allDone = false) : ∃ i cfg2, step L cfg i t = some cfg2 := by
  obtain ⟨s, procs⟩ := cfg
  have hchain := hinv.chain
  have hheld := hinv.held
  simp only at hchain hheld
  obtain ⟨E, hE⟩ := getLast?_of_ne_nil s.Votes hchain.1
  cases hl : s.locked with
  | true =>
    obtain ⟨i, p, hi, hc⟩ := hheld.mp hl
    suffices h : (step L { store := s, procs := procs } i t).isSome = true from
      ⟨i, Option.isSome_iff_exists.mp h⟩
    cases p with
    | locked x => simp [step, hi, hE]
    | read x prevVote => simp [step, hi]
    | created prevVote newVote => simp [step, hi]
    | checked newVote valid =>
      cases valid with
      | true => simp [step, hi]
      | false => simp [step, hi]
    | appended => simp [step, hi]
    | start x => cases hc
    | unlocked => cases hc
    | done code => cases hc
    | rejected code => cases hc
    | panicked => cases hc
  | false =>
    have hex : ∃ p ∈ procs, p.isDone = false := by
      by_contra hcon
      have hall : procs.all Phase.isDone = true := by
        rw [List.all_eq_true]
        intro p hp
        cases hd : p.isDone with
        | true => rfl
        | false => exact absurd ⟨p, hp, hd⟩ hcon
      have : (Config.allDone { store := s, procs := procs }) = true := hall
      rw [hnd] at this
      cases this
    obtain ⟨p, hp, hd⟩ := hex
    obtain ⟨i, hi⟩ := List.mem_iff_getElem?.mp hp
    have hwf := hinv.wf i p hi
    simp only at hwf
    have hnc : p.isCritical = false := by
      cases hc : p.isCritical with
      | false => rfl
      | true =>
        have := hheld.mpr ⟨i, p, hi, hc⟩
        rw [hl] at this
        cases this
    suffices h : (step L { store := s, procs := procs } i t).isSome = true from
      ⟨i, Option.isSome_iff_exists.mp h⟩
    cases p with
    | start x => simp [step, hi, hl]
    | unlocked => simp [step, hi]
    | done code => cases hd
    | rejected code => exact absurd hwf id
    | panicked => exact absurd hwf id
    | locked x => cases hnc
    | read x prevVote => cases hnc
    | created prevVote newVote => cases hnc
    | checked newVote valid => cases hnc
    | appended => cases hnc

theorem exists_completion {Time : Type} (L : Lib Time) (votes0 : List (Vote Time)) (n : Nat)
    (t : Time) (m : Nat) :
    ∀ cfg : Config Time, ConcInv L votes0 n cfg → cfg.remaining = m →
      ∃ more : List (Nat × Time), (run L cfg more).allDone = true := by
  induction m with
  | zero =>
    intro cfg hinv hm
    cases hd : cfg.allDone with
    | true => exact ⟨[], hd⟩
    | false =>
      obtain ⟨i, cfg2, hs⟩ := exists_step L votes0 n cfg t hinv hd
      have := step_remaining L votes0 n cfg cfg2 i t hinv hs
      omega
  | succ k ih =>
    intro cfg hinv hm
    cases hd : cfg.allDone with
    | true => exact ⟨[], hd⟩
    | false =>
      obtain ⟨i, cfg2, hs⟩ := exists_step L votes0 n cfg t hinv hd
      have hrem := step_remaining L votes0 n cfg cfg2 i t hinv hs
      obtain ⟨more, hmore⟩ := ih cfg2 (step_preserves L votes0 n cfg cfg2 i t hinv hs)
        (by omega)
      refine ⟨(i, t) :: more, ?_⟩
      have : run L cfg ((i, t) :: more) = run L cfg2 more := by
        simp [run, hs]
      rw [this]; exact hmore

theorem allDone_facts {Time : Type} (L : Lib Time) (votes0 : List (Vote Time)) (n : Nat)
    (cfg : Config Time) (hinv : ConcInv L votes0 n cfg) (hd : cfg.allDone = true) :
    cfg.store.Votes.length = votes0.length + n ∧ cfg.store.locked = false := by
  have hall : ∀ p ∈ cfg.procs, p.isDone = true := List.all_eq_true.mp hd
  constructor
  · have hcount : cfg.procs.countP Phase.hasAppended = cfg.procs.length := by
      rw [List.countP_eq_length]
      intro p hp
      have := hall p hp
      cases p <;> simp_all [Phase.isDone, Phase.hasAppended]
    rw [hinv.len, hcount, hinv.size]
  · cases hl : cfg.store.locked with
    | false => rfl
    | true =>
      obtain ⟨i, p, hi, hc⟩ := hinv.held.mp hl
      have := hall p (List.mem_iff_getElem?.mpr ⟨i, hi⟩)
      cases p <;> simp_all [Phase.isDone, Phase.isCritical]

/-- The atomic steps refine the handler: one goroutine run alone for its seven steps
leaves the store exactly as `postVote` does, on every store. -/
theorem run_alone_eq_postVote {Time : Type} (L : Lib Time) (st : Store Time) (x : String)
    (t : Time) :
    (run L (Config.init st [x]) (List.replicate 7 (0, t))).store =
      (postVote L st (some { Value := x }) t).2 := by
  obtain ⟨votes, locked⟩ := st
  cases locked with
  | true => simp [run, step, Config.init, postVote, List.replicate]
  | false =>
    cases hE : votes.getLast? with
    | none => simp [run, step, Config.init, postVote, List.replicate, hE]
    | some E =>
      simp [run, step, Config.init, postVote, List.replicate, hE, validateVote_createVote]

/-- Claim C9. Let `n` calls of `postVote` (one per value of `xs`) be issued against a
store whose chain satisfies the chain invariant and whose mutex is free, and let them run
concurrently under any schedule of their atomic steps. In every configuration `cfg` so
reached: the chain satisfies the chain invariant (entry `i` has index `i`, literally so
below 2^63, so no index is duplicated or skipped; every consecutive pair is linked; every
hash is `generateHash` of its entry), the initial chain is a prefix of it (no lost update),
exactly one entry was added per goroutine that has executed its append, and at most one
goroutine is between `Lock` and `Unlock`. Once all calls have returned, the chain has
length `initial + n` and the mutex is free. Some goroutine can always move until all have
returned, and every such run can be completed. -/
theorem concurrent_postVotes {Time : Type} (L : Lib Time) (st : Store Time)
    (xs : List String) (sched : List (Nat × Time)) (cfg : Config Time)
    (hinv : ChainInvariant L st.Votes) (hfree : st.locked = false)
    (hcfg : cfg = run L (Config.init st xs) sched) :
    ChainInvariant L cfg.store.Votes ∧
    (∀ (i : Nat) (h : i < cfg.store.Votes.length), i < 9223372036854775808 →
      (cfg.store.Votes.get ⟨i, h⟩).Index = (i : Int)) ∧
    st.Votes <+: cfg.store.Votes ∧
    cfg.store.Votes.length = st.Votes.length + cfg.procs.countP Phase.hasAppended ∧
    (∀ (i j : Nat) (p q : Phase Time), cfg.procs[i]? = some p → cfg.procs[j]? = some q →
      p.isCritical = true → q.isCritical = true → i = j) ∧
    (cfg.allDone = true →
      cfg.store.Votes.length = st.Votes.length + xs.length ∧ cfg.store.locked = false) ∧
    (∀ t : Time, cfg.allDone = false → ∃ i cfg2, step L cfg i t = some cfg2) ∧
    (∀ _ : Time, ∃ more : List (Nat × Time), (run L cfg more).allDone = true) := by
  have h : ConcInv L st.Votes xs.length cfg := by
    rw [hcfg]
    exact run_preserves L st.Votes xs.length sched _ (concInv_init L st xs hinv hfree)
  refine ⟨h.chain, fun i hi hlt => ?_, h.pre, h.len, h.excl,
    fun hd => allDone_facts L st.Votes xs.length cfg h hd,
    fun t hnd => exists_step L st.Votes xs.length cfg t h hnd,
    fun t => exists_completion L st.Votes xs.length t cfg.remaining cfg h rfl⟩
  rw [h.chain.2.1 i hi]
  exact wrapInt_of_range _ (by omega) (by omega)

/-- Witness of C9 on the sample chain with real SHA-256: two concurrent calls under a
schedule in which the second waits for the mutex end with a chain of three entries,
indexed 0, 1, 2 and linked, and with the mutex free. -/
theorem concurrent_postVotes_witness :
    ChainInvariant stdLib sampleStore.Votes ∧ sampleStore.locked = false ∧
    sampleFinal.allDone = true ∧
    (sampleFinal.store.Votes.length = sampleStore.Votes.length + 2 ∧
      sampleFinal.store.locked = false) ∧
    ChainInvariant stdLib sampleFinal.store.Votes ∧
    sampleFinal.store.Votes.map (fun v => (v.Index, v.Value)) =
      [(0, ""), (1, "yes"), (2, "no")] :=
  ⟨chainInvariant_genesis stdLib _, rfl, by decide,
    (concurrent_postVotes stdLib sampleStore ["yes", "no"] sampleSchedule sampleFinal
      (chainInvariant_genesis stdLib _) rfl rfl).2.2.2.2.2.1 (by decide),
    (concurrent_postVotes stdLib sampleStore ["yes", "no"] sampleSchedule sampleFinal
      (chainInvariant_genesis stdLib _) rfl rfl).1,
    by decide⟩

end SimpleBlockchain
